import Mathlib

/-!
Shallow embedding of the nomos-testing scenario framework, covering:

* the block-feed scanner's `catch_up` gather/emit loop
  (`testing-framework/core/src/scenario/runtime/block_feed.rs`);
* the consensus-liveness expectation's `report` and `effective_lag_allowance`
  (`testing-framework/workflows/src/expectations/consensus_liveness.rs`);
* the transaction-inclusion expectation's `evaluate` and capture loop
  (`testing-framework/workflows/src/workloads/transaction/expectation.rs`);
* the transaction workload's `submission_plan`
  (`testing-framework/workflows/src/workloads/transaction/workload.rs`);
* the DA workload's planning helpers
  (`testing-framework/workflows/src/workloads/da/workload.rs`);
* deterministic wallet seeding (`testing-framework/configs/src/topology/configs/wallet.rs`);
* the chaos restart workload's target set and `pick_target`
  (`testing-framework/workflows/src/workloads/chaos.rs`).

Header ids are modelled as naturals; a block's content is represented by the
information the embedded code inspects (its parent id, its transactions'
output keys, channel ops are not needed here).  Rust `f64` duration
arithmetic is modelled over `ℚ`; `u64`/`usize` arithmetic is modelled over
`ℕ` with explicit saturation (`satMul64`, `satAdd64`) and release-mode
wrapping (`% 2 ^ 64`) where the source uses `saturating_*` or unchecked
operators.  Fallible code returns `Option`; a Rust panic is modelled as
`none`.
-/

/-! ## Block feed scanner (`block_feed.rs`)

`fetch` stands for `client.storage_block`: it maps a header id to the parent
id recorded in the stored block (`none` models a fetch/decode failure or a
missing block, which makes `catch_up` return `Err`).  A gathered stack entry
is the pair `(header, parent-of-header)`: of the fetched block the scanner
only consumes `block.header().parent()`, so the parent id is the faithful
projection of the block payload for this development. -/

/-- One gather loop of `BlockScanner::catch_up`: walk parents from `cursor`
while blocks are unseen and height remains, accumulating the stack that is
afterwards popped (deepest ancestor first).  The accumulator `stack` is kept
in pop order (head = most recently pushed = deepest), so the returned list
is exactly the emission order of the batch.  The second component is the
`seen` set as updated by the loop's `remaining_height == 0` break. -/
def gatherLoop (fetch : ℕ → Option ℕ) (seen : List ℕ) :
    ℕ → ℕ → List (ℕ × ℕ) → Option (List (ℕ × ℕ) × List ℕ)
  | remaining, cursor, stack =>
    if cursor ∈ seen then some (stack, seen)
    else
      match remaining with
      | 0 => some (stack, cursor :: seen)
      | r + 1 =>
        match fetch cursor with
        | none => none
        | some parent =>
          if parent ∈ seen ∨ parent = cursor then some ((cursor, parent) :: stack, seen)
          else gatherLoop fetch seen r parent ((cursor, parent) :: stack)

/-- `BlockScanner::catch_up` for one poll: gather from the node's tip at the
reported height, then emit the stack ancestor-first and insert every emitted
header into `seen`.  The first component of the result is the emitted batch
in broadcast order. -/
def catch_up (fetch : ℕ → Option ℕ) (seen : List ℕ) (tip height : ℕ) :
    Option (List (ℕ × ℕ) × List ℕ) :=
  (gatherLoop fetch seen height tip []).map fun out =>
    (out.1, out.1.map Prod.fst ++ out.2)

/-- `a` is an ancestor of `b` in the parent graph induced by `fetch`
(at least one parent step, every step through a fetched block). -/
def fetchIter (fetch : ℕ → Option ℕ) : ℕ → ℕ → Option ℕ
  | 0, b => some b
  | k + 1, b => (fetch b).bind (fetchIter fetch k)

/-- Ancestry relation of the block graph served by `fetch`. -/
def IsAncestor (fetch : ℕ → Option ℕ) (a b : ℕ) : Prop :=
  ∃ k : ℕ, fetchIter fetch (k + 1) b = some a

/-- Linking shape of a gathered stack: the head is the most recently pushed
entry and its header equals the parent recorded in the entry below it. -/
def StackLink (x y : ℕ × ℕ) : Prop := x.1 = y.2

/-! ## Consensus liveness (`consensus_liveness.rs`) -/

def MAX_LAG_ALLOWANCE : ℕ := 5

def MIN_PROGRESS_BLOCKS : ℕ := 5

/-- Rust `Ord::clamp`: asserts `lo ≤ hi` (panic modelled as `none`), then
returns `max lo (min x hi)`. -/
def clampRust (x lo hi : ℕ) : Option ℕ :=
  if hi < lo then none else some (max lo (min x hi))

/-- `ConsensusLiveness::effective_lag_allowance`:
`(target / 10).clamp(self.lag_allowance, MAX_LAG_ALLOWANCE)`. -/
def effective_lag_allowance (lagAllowance target : ℕ) : Option ℕ :=
  clampRust (target / 10) lagAllowance MAX_LAG_ALLOWANCE

/-- The target degradation performed by `ConsensusLiveness::report`:
start from the hint and fall back to the maximum observed height when the
hint is zero or exceeds it. -/
def liveness_target (targetHint maxHeight : ℕ) : ℕ :=
  if targetHint = 0 ∨ maxHeight < targetHint then maxHeight else targetHint

/-- `ConsensusLiveness::report` on a fully collected check (all
`consensus_info` requests succeeded, so the issue list starts empty), keyed
by the sampled heights.  `some true` is `Ok(())`, `some false` is the
`Violations`/`MissingParticipants` error, `none` is the `clamp` panic. -/
def liveness_report (lagAllowance targetHint : ℕ) (heights : List ℕ) : Option Bool :=
  match heights with
  | [] => some false
  | _ :: _ =>
    let maxHeight := heights.foldr max 0
    let target := liveness_target targetHint maxHeight
    match effective_lag_allowance lagAllowance target with
    | none => none
    | some lag =>
      let anyIssue :=
        decide (maxHeight < MIN_PROGRESS_BLOCKS) ||
          heights.any fun h => decide (h + lag < target)
      some !anyIssue

/-! ## Transaction inclusion expectation (`transaction/expectation.rs`) -/

/-- A block as inspected by the capture task: the header's parent id and,
per transaction, the list of output public keys of its ledger tx.  Public
keys are modelled as naturals. -/
structure CapturedBlock where
  parent : ℕ
  txs : List (List ℕ)

/-- Inner loop of the capture task over one transaction's outputs: the first
tracked output increments the counter by one and `break`s out. -/
def observe_outputs (tracked : List ℕ) : List ℕ → ℕ
  | [] => 0
  | pk :: rest => if pk ∈ tracked then 1 else observe_outputs tracked rest

/-- One received `BlockRecord` processed by the capture task spawned in
`TxInclusionExpectation::start_capture`: blocks whose parent is the genesis
id are skipped, otherwise each transaction's outputs are scanned. -/
def observe_block (tracked : List ℕ) (genesisParent : ℕ) (blk : CapturedBlock)
    (observed : ℕ) : ℕ :=
  if blk.parent = genesisParent then observed
  else observed + (blk.txs.map fun tx => observe_outputs tracked tx).sum

/-- Counting rule stated by the spec for the capture task: one increment for
every ledger output (across all transactions) whose key is tracked.
Modelled from the spec for comparison against `observe_block`. -/
def observe_block_spec (tracked : List ℕ) (genesisParent : ℕ) (blk : CapturedBlock)
    (observed : ℕ) : ℕ :=
  if blk.parent = genesisParent then observed
  else observed + (blk.txs.map fun tx => (tx.filter fun pk => pk ∈ tracked).length).sum

/-- Outcome of `TxInclusionExpectation::evaluate` on a captured state. -/
inductive TxEvalResult where
  | ok : TxEvalResult
  | insufficientInclusions (observed required : ℕ) : TxEvalResult
deriving DecidableEq, Repr

/-- `MIN_INCLUSION_RATIO = 0.5`, applied as `(expected as f64 * 0.5).ceil()`,
modelled over `ℚ`. -/
def tx_required (expected : ℕ) : ℕ := Nat.ceil ((expected : ℚ) * (1 / 2))

/-- `TxInclusionExpectation::evaluate` on a captured state with planned
count `expected` and counter value `observed`. -/
def tx_evaluate (expected observed : ℕ) : TxEvalResult :=
  if tx_required expected ≤ observed then TxEvalResult.ok
  else TxEvalResult.insufficientInclusions observed (tx_required expected)

/-! ## Transaction submission plan (`transaction/workload.rs`)

Durations are rationals (seconds); `submission_plan`'s `f64` arithmetic is
modelled exactly over `ℚ`.  The `clamp(0.0, u64::MAX as f64)` on the floored
request is modelled by `Int.toNat` (the lower clamp) and `min` with
`u64MAX` (the upper clamp). -/

def u64MAX : ℕ := 2 ^ 64 - 1

/-- `submission_plan(txs_per_block, ctx, available_accounts)`: `none` models
the two `Err` returns ("scheduled zero transactions"); otherwise the result
is `(planned, interval)`. -/
def submission_plan (txsPerBlock : ℕ) (runDuration : ℚ) (blockIntervalHint : Option ℚ)
    (availableAccounts : ℕ) : Option (ℕ × ℚ) :=
  if availableAccounts = 0 then none
  else
    let blockSecs := blockIntervalHint.getD runDuration
    let expectedBlocks := runDuration / blockSecs
    let requested := min (Int.toNat ⌊expectedBlocks * (txsPerBlock : ℚ)⌋) u64MAX
    let planned := min requested availableAccounts
    if planned = 0 then none
    else some (planned, runDuration / (planned : ℚ))

/-! ## DA workload planning (`da/workload.rs`)

`usize`/`u64` are 64-bit; `saturating_mul`/`saturating_add` are modelled by
`satMul64`/`satAdd64`, and the unchecked `+`/`-` by release-mode wrapping
arithmetic modulo `2 ^ 64`. -/

def satMul64 (a b : ℕ) : ℕ := min (a * b) u64MAX

def satAdd64 (a b : ℕ) : ℕ := min (a + b) u64MAX

def wrapAdd64 (a b : ℕ) : ℕ := (a + b) % 2 ^ 64

def wrapSub64 (a b : ℕ) : ℕ := (a + 2 ^ 64 - b % 2 ^ 64) % 2 ^ 64

/-- `planned_channel_count(channel_rate_per_block, headroom_percent)`:
`base + ceil(base * headroom / 100)`, floored at 1. -/
def planned_channel_count (channelRatePerBlock headroomPercent : ℕ) : ℕ :=
  let base := channelRatePerBlock
  let extra := wrapAdd64 (satMul64 base headroomPercent) 99 / 100
  let total := satAdd64 base extra
  max total 1

/-- `planned_blob_count(blob_rate_per_block, run_metrics)`, with
`expectedBlocks` standing for `run_metrics.expected_consensus_blocks()`. -/
def planned_blob_count (blobRatePerBlock expectedBlocks : ℕ) : ℕ :=
  satMul64 blobRatePerBlock (max expectedBlocks 1)

/-- `per_channel_blob_target(total_blobs, channel_count)`. -/
def per_channel_blob_target (totalBlobs channelCount : ℕ) : ℕ :=
  if channelCount = 0 then max totalBlobs 1
  else max (wrapSub64 (wrapAdd64 totalBlobs channelCount) 1 / channelCount) 1

/-! ## Deterministic wallet seeding (`wallet.rs`)

A secret key is the `BigUint` read little-endian from the 32-byte seed whose
first two bytes are `b"wl"` (`0x77`, `0x6c`), whose bytes 2..10 hold the
account index little-endian, and whose remaining bytes are zero.  The
public key of the external `zksign` crate is kept abstract: only the fact
that it is a function of the secret key matters here. -/

structure WalletAccount where
  label : String
  secret_key : ℕ
  value : ℕ
deriving DecidableEq, Repr

/-- Value of the deterministic 32-byte seed for `index`, read little-endian:
`0x77 + 0x6c·2⁸ + (index mod 2⁶⁴)·2¹⁶`. -/
def deterministic_seed (index : ℕ) : ℕ :=
  0x77 + 0x6c * 2 ^ 8 + index % 2 ^ 64 * 2 ^ 16

/-- `WalletAccount::deterministic(index, value)`; the `value > 0` assert of
`WalletAccount::new` is modelled as `none`. -/
def WalletAccount.deterministic (index value : ℕ) : Option WalletAccount :=
  if value = 0 then none
  else some ⟨"wallet-user-" ++ toString index, deterministic_seed index, value⟩

/-- The account-building loop of `WalletConfig::uniform`: `remaining`
threads the mutable `remainder`, `idx` the running account index, `count`
the accounts still to build. -/
def uniformLoop (baseAllocation : ℕ) : ℕ → ℕ → ℕ → Option (List WalletAccount)
  | _, _, 0 => some []
  | idx, remaining, count + 1 =>
    let amount := if 0 < remaining then baseAllocation + 1 else baseAllocation
    match WalletAccount.deterministic idx amount with
    | none => none
    | some account =>
      match uniformLoop baseAllocation (idx + 1) (remaining - 1) count with
      | none => none
      | some rest => some (account :: rest)

/-- `WalletConfig::uniform(total_funds, users)`; the two asserts are
modelled as `none` (`users` is a `NonZeroUsize`, modelled by the zero
check). -/
def WalletConfig.uniform (totalFunds users : ℕ) : Option (List WalletAccount) :=
  if users = 0 then none
  else if totalFunds < users then none
  else uniformLoop (totalFunds / users) 0 (totalFunds % users) users

/-! ## Chaos restart workload (`chaos.rs`) -/

inductive ChaosTarget where
  | validator (index : ℕ) : ChaosTarget
  | executor (index : ℕ) : ChaosTarget
deriving DecidableEq, Repr

/-- `RandomRestartWorkload::targets`: validators only when more than one is
configured, then executors, each subject to its include flag. -/
def chaos_targets (includeValidators includeExecutors : Bool)
    (validatorCount executorCount : ℕ) : List ChaosTarget :=
  (if includeValidators && decide (1 < validatorCount) then
    (List.range validatorCount).map ChaosTarget.validator
  else []) ++
  (if includeExecutors then (List.range executorCount).map ChaosTarget.executor else [])

/-- Result of one iteration of the `pick_target` loop: either sleep until
`t` (and loop again), or draw uniformly from the given candidate list. -/
inductive PickAction where
  | sleepUntil (t : ℕ) : PickAction
  | pickFrom (candidates : List ChaosTarget) : PickAction
  | fallbackFrom (candidates : List ChaosTarget) : PickAction
deriving DecidableEq, Repr

/-- Minimum of a list of naturals, mirroring `Iterator::min`. -/
def listMin : List ℕ → Option ℕ
  | [] => none
  | x :: xs =>
    match listMin xs with
    | none => some x
    | some m => some (min x m)

/-- One iteration of `RandomRestartWorkload::pick_target` at instant `now`
with per-target ready instants `cooldowns`: if any cooldown lies in the
future, sleep until the earliest such instant; otherwise draw from the
ready targets (with the dead-code fallback to the full list). -/
def pick_target_step (targets : List ChaosTarget) (cooldowns : ChaosTarget → ℕ)
    (now : ℕ) : PickAction :=
  match listMin ((targets.map cooldowns).filter fun ready => decide (now < ready)) with
  | some nextReady => PickAction.sleepUntil nextReady
  | none =>
    let available := targets.filter fun t => decide (cooldowns t ≤ now)
    if available.isEmpty then PickAction.fallbackFrom targets
    else PickAction.pickFrom available

/-! ## Helper lemmas -/

/-- Ceiling division over `ℚ` agrees with the `(a + b - 1) / b` idiom on
naturals. -/
theorem natCeil_div_eq (a b : ℕ) (hb : 0 < b) :
    Nat.ceil ((a : ℚ) / b) = (a + b - 1) / b := by
  have hbq : (0 : ℚ) < (b : ℚ) := by exact_mod_cast hb
  rcases Nat.eq_zero_or_pos a with ha | ha
  · subst ha
    rw [Nat.cast_zero, zero_div, Nat.ceil_zero]
    exact (Nat.div_eq_of_lt (by omega)).symm
  · have hmod := Nat.div_add_mod (a + b - 1) b
    have hr : (a + b - 1) % b < b := Nat.mod_lt _ hb
    obtain ⟨q, hq⟩ : ∃ q, (a + b - 1) / b = q := ⟨_, rfl⟩
    obtain ⟨r, hrdef⟩ : ∃ r, (a + b - 1) % b = r := ⟨_, rfl⟩
    rw [hq, hrdef] at hmod
    rw [hrdef] at hr
    rw [hq]
    obtain ⟨m, hm⟩ : ∃ m, b * q = m := ⟨_, rfl⟩
    rw [hm] at hmod
    obtain ⟨qq, rfl⟩ : ∃ qq, q = qq + 1 := by
      rcases Nat.eq_zero_or_pos q with h0 | h0
      · rw [h0, Nat.mul_zero] at hm
        omega
      · exact ⟨q - 1, by omega⟩
    rw [Nat.mul_succ] at hm
    obtain ⟨m2, hm2⟩ : ∃ m2, b * qq = m2 := ⟨_, rfl⟩
    rw [hm2] at hm
    rw [Nat.ceil_eq_iff (by omega)]
    constructor
    · have hlt : (qq * b : ℕ) < a := by
        rw [Nat.mul_comm, hm2]
        omega
      have : ((qq * b : ℕ) : ℚ) < (a : ℚ) := by exact_mod_cast hlt
      rw [lt_div_iff₀ hbq]
      simpa using this
    · have hle : a ≤ (qq + 1) * b := by
        rw [Nat.succ_mul, Nat.mul_comm, hm2]
        omega
      have : ((a : ℕ) : ℚ) ≤ (((qq + 1) * b : ℕ) : ℚ) := by exact_mod_cast hle
      rw [div_le_iff₀ hbq]
      push_cast at this ⊢
      linarith

/-- The `f64` half-ceiling of the inclusion target agrees with `(n + 1) / 2`. -/
theorem tx_required_eq (expected : ℕ) : tx_required expected = (expected + 1) / 2 := by
  have h := natCeil_div_eq expected 2 (by omega)
  push_cast at h
  rw [tx_required, mul_one_div, h]

/-! ## Claim theorems -/

/-- C3: `TxInclusionExpectation::evaluate` returns `Ok` exactly when the
observed counter reaches `ceil(planned * 0.5)`, and otherwise returns
`InsufficientInclusions` carrying the observed and required counts. -/
theorem tx_inclusion_evaluate_iff (planned observed : ℕ) :
    (tx_evaluate planned observed = TxEvalResult.ok ↔ (planned + 1) / 2 ≤ observed) ∧
    (tx_evaluate planned observed ≠ TxEvalResult.ok →
      tx_evaluate planned observed =
        TxEvalResult.insufficientInclusions observed ((planned + 1) / 2)) ∧
    tx_required planned = Nat.ceil ((planned : ℚ) * (1 / 2)) ∧
    tx_required planned = (planned + 1) / 2 := by
  refine ⟨?_, ?_, rfl, tx_required_eq planned⟩
  · rw [tx_evaluate, tx_required_eq]
    by_cases h : (planned + 1) / 2 ≤ observed
    · rw [if_pos h]
      simp [h]
    · rw [if_neg h]
      simp [h]
  · intro hne
    rw [tx_evaluate, tx_required_eq] at hne ⊢
    by_cases h : (planned + 1) / 2 ≤ observed
    · rw [if_pos h] at hne
      exact absurd rfl hne
    · rw [if_neg h]

/-- C3 witness: at `planned = 5`, `observed = 2` the evaluation fails with
the required count `3`. -/
theorem tx_inclusion_evaluate_iff_witness :
    (tx_evaluate 5 2 = TxEvalResult.ok ↔ (5 + 1) / 2 ≤ 2) ∧
    tx_evaluate 5 2 = TxEvalResult.insufficientInclusions 2 ((5 + 1) / 2) ∧
    tx_required 5 = (5 + 1) / 2 :=
  ⟨(tx_inclusion_evaluate_iff 5 2).1,
    (tx_inclusion_evaluate_iff 5 2).2.1 fun h => by
      have := (tx_inclusion_evaluate_iff 5 2).1.mp h
      omega,
    (tx_inclusion_evaluate_iff 5 2).2.2.2⟩

/-- C10: `effective_lag_allowance` is total for configured allowances at
most `MAX_LAG_ALLOWANCE = 5` and then yields a value between the configured
allowance and 5; any larger configured allowance makes the `clamp` call
panic for every target, so `report` (hence `evaluate`) is only safe under
`configured_lag_allowance ≤ 5`. -/
theorem effective_lag_allowance_safety :
    (∀ lagAllowance target : ℕ, lagAllowance ≤ MAX_LAG_ALLOWANCE →
      ∃ v, effective_lag_allowance lagAllowance target = some v ∧
        lagAllowance ≤ v ∧ v ≤ MAX_LAG_ALLOWANCE) ∧
    (∀ lagAllowance target : ℕ, MAX_LAG_ALLOWANCE < lagAllowance →
      effective_lag_allowance lagAllowance target = none) ∧
    (∀ lagAllowance targetHint : ℕ, ∀ heights : List ℕ, heights ≠ [] →
      MAX_LAG_ALLOWANCE < lagAllowance →
      liveness_report lagAllowance targetHint heights = none) := by
  refine ⟨?_, ?_, ?_⟩
  · intro lag target hlag
    refine ⟨max lag (min (target / 10) MAX_LAG_ALLOWANCE), ?_, le_max_left _ _, ?_⟩
    · rw [effective_lag_allowance, clampRust, if_neg (by omega)]
    · exact max_le hlag (min_le_right _ _)
  · intro lag target hlag
    rw [effective_lag_allowance, clampRust, if_pos hlag]
  · intro lag targetHint heights hne hlag
    cases heights with
    | nil => exact absurd rfl hne
    | cons a t =>
      simp only [liveness_report]
      rw [effective_lag_allowance, clampRust, if_pos hlag]

/-- C10 witness: the default-style allowance 2 is clamped into `[2, 5]`,
while allowance 6 panics, including through `report`. -/
theorem effective_lag_allowance_safety_witness :
    (∃ v, effective_lag_allowance 2 30 = some v ∧ 2 ≤ v ∧ v ≤ MAX_LAG_ALLOWANCE) ∧
    effective_lag_allowance 6 30 = none ∧
    liveness_report 6 0 [7] = none :=
  ⟨effective_lag_allowance_safety.1 2 30 (by decide),
    effective_lag_allowance_safety.2.1 6 30 (by decide),
    effective_lag_allowance_safety.2.2 6 0 [7] (by decide) (by decide)⟩

/-- C2: with all requests collected, a non-empty sample set and a configured
allowance within the clamp bound, `report` fails exactly when `max_h < 5` or
some node's height plus the effective lag allowance stays below the degraded
target. -/
theorem consensus_liveness_report_iff (lagAllowance targetHint : ℕ)
    (heights : List ℕ) (hne : heights ≠ [])
    (hlag : lagAllowance ≤ MAX_LAG_ALLOWANCE) :
    ∃ lag, effective_lag_allowance lagAllowance
        (liveness_target targetHint (heights.foldr max 0)) = some lag ∧
      (liveness_report lagAllowance targetHint heights = some false ↔
        (heights.foldr max 0 < MIN_PROGRESS_BLOCKS ∨
          ∃ h ∈ heights, h + lag <
            liveness_target targetHint (heights.foldr max 0))) ∧
      (liveness_report lagAllowance targetHint heights = some true ↔
        ¬(heights.foldr max 0 < MIN_PROGRESS_BLOCKS ∨
          ∃ h ∈ heights, h + lag <
            liveness_target targetHint (heights.foldr max 0))) := by
  cases heights with
  | nil => exact absurd rfl hne
  | cons a t =>
    refine ⟨max lagAllowance
      (min (liveness_target targetHint ((a :: t).foldr max 0) / 10)
        MAX_LAG_ALLOWANCE), ?_, ?_⟩
    · rw [effective_lag_allowance, clampRust, if_neg (by omega)]
    · have hrep : liveness_report lagAllowance targetHint (a :: t) =
          some !(decide ((a :: t).foldr max 0 < MIN_PROGRESS_BLOCKS) ||
            (a :: t).any fun h => decide (h + max lagAllowance
              (min (liveness_target targetHint ((a :: t).foldr max 0) / 10)
                MAX_LAG_ALLOWANCE) <
              liveness_target targetHint ((a :: t).foldr max 0))) := by
        simp only [liveness_report]
        rw [effective_lag_allowance, clampRust, if_neg (by omega)]
      rw [hrep]
      have hb : ∀ b : Bool, ((some !b : Option Bool) = some false ↔ b = true) ∧
          ((some !b : Option Bool) = some true ↔ b = false) := by decide
      constructor
      · rw [(hb _).1]
        simp only [Bool.or_eq_true, decide_eq_true_eq, List.any_eq_true]
      · rw [(hb _).2, Bool.eq_false_iff, ne_eq]
        simp only [Bool.or_eq_true, decide_eq_true_eq, List.any_eq_true]

/-- C2 witness: a single sample of height 3 fails (no real progress). -/
theorem consensus_liveness_report_iff_witness :
    ∃ lag, effective_lag_allowance 2
        (liveness_target 0 ([3].foldr max 0)) = some lag ∧
      (liveness_report 2 0 [3] = some false ↔
        ([3].foldr max 0 < MIN_PROGRESS_BLOCKS ∨
          ∃ h ∈ [3], h + lag < liveness_target 0 ([3].foldr max 0))) ∧
      (liveness_report 2 0 [3] = some true ↔
        ¬([3].foldr max 0 < MIN_PROGRESS_BLOCKS ∨
          ∃ h ∈ [3], h + lag < liveness_target 0 ([3].foldr max 0))) :=
  consensus_liveness_report_iff 2 0 [3] (by decide) (by decide)

/-- C5: in the saturation-free range, the DA plan computes
`channel_count = max(1, rate + ceil(rate * headroom / 100))`,
`expected_blobs = blob_rate * max(expected_blocks, 1)` and
`per_channel_target = max(1, ceil(expected_blobs / channel_count))`. -/
theorem da_plan_formulas (channelRate headroom blobRate expectedBlocks
    totalBlobs channelCount : ℕ)
    (hcr : 0 < channelRate) (hhr : 0 < headroom) (hbr : 0 < blobRate)
    (hcc : 0 < channelCount)
    (hb1 : channelRate * headroom + 99 < 2 ^ 64)
    (hb2 : channelRate + (channelRate * headroom + 99) / 100 ≤ u64MAX)
    (hb3 : blobRate * max expectedBlocks 1 ≤ u64MAX)
    (hb4 : totalBlobs + channelCount < 2 ^ 64) :
    planned_channel_count channelRate headroom =
      max 1 (channelRate + Nat.ceil ((channelRate * headroom : ℚ) / 100)) ∧
    planned_blob_count blobRate expectedBlocks = blobRate * max expectedBlocks 1 ∧
    per_channel_blob_target totalBlobs channelCount =
      max 1 (Nat.ceil ((totalBlobs : ℚ) / channelCount)) := by
  refine ⟨?_, ?_, ?_⟩
  · have hceil : Nat.ceil ((channelRate * headroom : ℚ) / 100) =
        (channelRate * headroom + 99) / 100 := by
      have h := natCeil_div_eq (channelRate * headroom) 100 (by omega)
      push_cast at h
      omega
    rw [planned_channel_count, hceil]
    have hmul : satMul64 channelRate headroom = channelRate * headroom := by
      rw [satMul64, u64MAX]
      omega
    rw [hmul, wrapAdd64, Nat.mod_eq_of_lt hb1, satAdd64, u64MAX]
    rw [u64MAX] at hb2
    omega
  · rw [planned_blob_count, satMul64]
    omega
  · rw [per_channel_blob_target, if_neg (by omega)]
    have hceil : Nat.ceil ((totalBlobs : ℚ) / channelCount) =
        (totalBlobs + channelCount - 1) / channelCount := by
      exact natCeil_div_eq totalBlobs channelCount hcc
    rw [hceil, wrapAdd64, Nat.mod_eq_of_lt hb4, wrapSub64]
    have h1 : (1 : ℕ) % 2 ^ 64 = 1 := by norm_num
    rw [h1]
    have h2 : totalBlobs + channelCount + 2 ^ 64 - 1 =
        (totalBlobs + channelCount - 1) + 2 ^ 64 := by omega
    rw [h2, Nat.add_mod_right, Nat.mod_eq_of_lt (by omega)]
    omega

/-- C5 witness: `rate = 1`, `headroom = 20`, `blob_rate = 1`,
`expected_blocks = 10`, `total = 10`, `channels = 2`. -/
theorem da_plan_formulas_witness :
    planned_channel_count 1 20 =
      max 1 (1 + Nat.ceil ((1 * 20 : ℚ) / 100)) ∧
    planned_blob_count 1 10 = 1 * max 10 1 ∧
    per_channel_blob_target 10 2 = max 1 (Nat.ceil ((10 : ℚ) / 2)) :=
  da_plan_formulas 1 20 1 10 10 2 (by norm_num) (by norm_num) (by norm_num)
    (by norm_num) (by norm_num) (by norm_num [u64MAX]) (by norm_num [u64MAX])
    (by norm_num)

/-- C4: `submission_plan` computes
`planned = min(floor(run_duration / block_interval * rate), accounts)` with
the run duration standing in for a missing block-interval hint, errors
exactly when that quantity is zero (or no accounts are available), and
otherwise returns `interval = run_duration / planned`. -/
theorem submission_plan_spec (txsPerBlock : ℕ) (runDuration : ℚ)
    (blockIntervalHint : Option ℚ) (availableAccounts planned0 : ℕ)
    (hrate : 0 < txsPerBlock) (hrun : 0 < runDuration)
    (hhint : ∀ b, blockIntervalHint = some b → 0 < b)
    (hacc : availableAccounts < 2 ^ 64)
    (hpl : planned0 = min
      (Int.toNat ⌊runDuration / blockIntervalHint.getD runDuration *
        (txsPerBlock : ℚ)⌋) availableAccounts) :
    (submission_plan txsPerBlock runDuration blockIntervalHint availableAccounts
        = none ↔ planned0 = 0) ∧
    (0 < planned0 →
      submission_plan txsPerBlock runDuration blockIntervalHint availableAccounts
        = some (planned0, runDuration / (planned0 : ℚ))) := by
  simp only [submission_plan]
  by_cases hz : availableAccounts = 0
  · rw [if_pos hz]
    subst hz
    simp only [Nat.min_zero] at hpl
    subst hpl
    exact ⟨by simp, fun h => absurd h (by omega)⟩
  · rw [if_neg hz]
    have hmin : min (min
        (Int.toNat ⌊runDuration / blockIntervalHint.getD runDuration *
          (txsPerBlock : ℚ)⌋) u64MAX) availableAccounts = planned0 := by
      rw [hpl, u64MAX]
      omega
    rw [hmin]
    by_cases hp : planned0 = 0
    · rw [if_pos hp]
      exact ⟨by simp [hp], fun h => absurd h (by omega)⟩
    · rw [if_neg hp]
      exact ⟨by simp [hp], fun _ => rfl⟩

/-- C4 witness: rate 5, 60 s run, 2 s block interval, 8 accounts gives
`planned = 8`, `interval = 60 / 8`. -/
theorem submission_plan_spec_witness :
    (submission_plan 5 60 (some 2) 8 = none ↔ (8 : ℕ) = 0) ∧
    ((0 : ℕ) < 8 →
      submission_plan 5 60 (some 2) 8 = some (8, 60 / ((8 : ℕ) : ℚ))) :=
  submission_plan_spec 5 60 (some 2) 8 8 (by norm_num) (by norm_num)
    (by intro b hb
        injection hb with hb
        rw [← hb]
        norm_num)
    (by norm_num)
    (by norm_num)

/-- Invariant of the `uniform` account loop: with a positive base
allocation the loop succeeds, yields `count` accounts whose values sum to
`count * base + min remaining count`, and derives each secret key from the
running index alone. -/
theorem uniformLoop_spec (base : ℕ) (hbase : 0 < base) :
    ∀ count idx remaining, ∃ accounts,
      uniformLoop base idx remaining count = some accounts ∧
      accounts.length = count ∧
      (accounts.map WalletAccount.value).sum = count * base + min remaining count ∧
      ∀ i (h : i < accounts.length),
        (accounts.get ⟨i, h⟩).secret_key = deterministic_seed (idx + i) := by
  intro count
  induction count with
  | zero =>
    intro idx remaining
    exact ⟨[], rfl, rfl, by simp, fun i h => absurd h (by simp)⟩
  | succ c ih =>
    intro idx remaining
    obtain ⟨rest, hrest, hlen, hsum, hkeys⟩ := ih (idx + 1) (remaining - 1)
    have hamount : (if 0 < remaining then base + 1 else base) ≠ 0 := by
      split <;> omega
    refine ⟨⟨"wallet-user-" ++ toString idx, deterministic_seed idx,
        if 0 < remaining then base + 1 else base⟩ :: rest, ?_, ?_, ?_, ?_⟩
    · simp only [uniformLoop, WalletAccount.deterministic, if_neg hamount, hrest]
    · simp [hlen]
    · simp only [List.map_cons, List.sum_cons, hsum]
      obtain ⟨m, hm⟩ : ∃ m, c * base = m := ⟨_, rfl⟩
      rw [Nat.succ_mul, hm]
      rcases Nat.eq_zero_or_pos remaining with h0 | h0
      · subst h0
        simp
        omega
      · rw [if_pos h0, Nat.min_def, Nat.min_def]
        split <;> split <;> omega
    · intro i h
      cases i with
      | zero => rfl
      | succ i' =>
        have h' : i' < rest.length := by
          simpa [hlen] using h
        have := hkeys i' h'
        simpa [Nat.add_assoc, Nat.add_comm 1 i'] using this

/-- C6: `WalletConfig::uniform(T, n)` with `n ≠ 0` and `T ≥ n` yields
exactly `n` accounts, their values sum to `T`, and every secret key (hence
every public key) is a function of the fixed `b"wl"` seed prefix and the
account index alone. -/
theorem wallet_uniform_roundtrip (totalFunds users : ℕ) (husers : 0 < users)
    (hfunds : users ≤ totalFunds) :
    ∃ accounts, WalletConfig.uniform totalFunds users = some accounts ∧
      accounts.length = users ∧
      (accounts.map WalletAccount.value).sum = totalFunds ∧
      ∀ i (h : i < accounts.length),
        (accounts.get ⟨i, h⟩).secret_key = deterministic_seed i := by
  have hbase : 0 < totalFunds / users := Nat.div_pos hfunds husers
  obtain ⟨accounts, hloop, hlen, hsum, hkeys⟩ :=
    uniformLoop_spec (totalFunds / users) hbase users 0 (totalFunds % users)
  refine ⟨accounts, ?_, hlen, ?_, fun i h => by simpa using hkeys i h⟩
  · rw [WalletConfig.uniform, if_neg (by omega), if_neg (by omega)]
    exact hloop
  · rw [hsum]
    have hmod : totalFunds % users < users := Nat.mod_lt _ husers
    have hdm := Nat.div_add_mod totalFunds users
    rw [Nat.min_eq_left (by omega)]
    exact hdm

/-- C6 witness: `uniform(10, 3)` gives three accounts valued `4, 3, 3`. -/
theorem wallet_uniform_roundtrip_witness :
    ∃ accounts, WalletConfig.uniform 10 3 = some accounts ∧
      accounts.length = 3 ∧
      (accounts.map WalletAccount.value).sum = 10 ∧
      ∀ i (h : i < accounts.length),
        (accounts.get ⟨i, h⟩).secret_key = deterministic_seed i :=
  wallet_uniform_roundtrip 10 3 (by norm_num) (by norm_num)

/-- The output scan of one transaction yields one increment when any output
key is tracked, and zero otherwise. -/
theorem observe_outputs_eq (tracked : List ℕ) :
    ∀ outs : List ℕ, observe_outputs tracked outs =
      if outs.any (fun pk => decide (pk ∈ tracked)) = true then 1 else 0 := by
  intro outs
  induction outs with
  | nil => rfl
  | cons pk rest ih =>
    rw [observe_outputs]
    by_cases hpk : pk ∈ tracked
    · simp [hpk]
    · simp [hpk, ih]

/-- C9 counterexample: a non-genesis block with one transaction holding two
tracked outputs increments the counter once, while the claimed per-output
rule would increment it twice. -/
theorem tx_capture_per_output_counterexample :
    observe_block [1] 0 ⟨5, [[1, 1]]⟩ 0 = 1 ∧
    observe_block_spec [1] 0 ⟨5, [[1, 1]]⟩ 0 = 2 ∧
    observe_block [1] 0 ⟨5, [[1, 1]]⟩ 0 ≠
      observe_block_spec [1] 0 ⟨5, [[1, 1]]⟩ 0 := by
  refine ⟨rfl, rfl, ?_⟩
  decide

/-- C9 amended: for every block with a non-genesis parent, the capture task
increments the observed counter once for each transaction that has at least
one ledger output with a tracked key (the inner loop `break`s after the
first tracked output); blocks whose parent is the genesis id are skipped
entirely. -/
theorem tx_capture_block_increment (tracked : List ℕ) (genesisParent : ℕ)
    (blk : CapturedBlock) (observed : ℕ) :
    observe_block tracked genesisParent blk observed =
      if blk.parent = genesisParent then observed
      else observed +
        blk.txs.countP fun tx => tx.any fun pk => decide (pk ∈ tracked) := by
  rw [observe_block]
  by_cases hp : blk.parent = genesisParent
  · rw [if_pos hp, if_pos hp]
  · rw [if_neg hp, if_neg hp]
    congr 1
    induction blk.txs with
    | nil => rfl
    | cons tx rest ih =>
      rw [List.map_cons, List.sum_cons, List.countP_cons, ih, observe_outputs_eq]
      simp only [List.any_eq_true, decide_eq_true_eq]
      exact Nat.add_comm _ _

/-- `listMin` returns an element of the list. -/
theorem listMin_mem : ∀ l : List ℕ, ∀ m, listMin l = some m → m ∈ l := by
  intro l
  induction l with
  | nil => intro m h; exact absurd h (by simp [listMin])
  | cons x xs ih =>
    intro m h
    rw [listMin] at h
    cases hxs : listMin xs with
    | none =>
      rw [hxs] at h
      injection h with h
      exact h ▸ List.mem_cons_self x xs
    | some m' =>
      rw [hxs] at h
      injection h with h
      rcases Nat.le_total x m' with hle | hle
      · rw [← h, Nat.min_eq_left hle]
        exact List.mem_cons_self x xs
      · rw [← h, Nat.min_eq_right hle]
        exact List.mem_cons_of_mem x (ih m' hxs)

/-- `listMin` bounds every element of the list from below. -/
theorem listMin_le : ∀ l : List ℕ, ∀ m, listMin l = some m → ∀ x ∈ l, m ≤ x := by
  intro l
  induction l with
  | nil => intro m h; exact absurd h (by simp [listMin])
  | cons x xs ih =>
    intro m h y hy
    rw [listMin] at h
    cases hxs : listMin xs with
    | none =>
      rw [hxs] at h
      injection h with h
      cases xs with
      | nil =>
        rcases List.mem_singleton.mp hy with rfl
        omega
      | cons a t => exact absurd hxs (by rw [listMin]; cases listMin t <;> simp)
    | some m' =>
      rw [hxs] at h
      injection h with h
      rcases List.mem_cons.mp hy with rfl | hy'
      · omega
      · have := ih m' hxs y hy'
        omega

/-- A non-empty list has a minimum. -/
theorem listMin_isSome : ∀ (x : ℕ) (xs : List ℕ), ∃ m, listMin (x :: xs) = some m := by
  intro x xs
  rw [listMin]
  cases listMin xs with
  | none => exact ⟨x, rfl⟩
  | some m => exact ⟨min x m, rfl⟩

/-- C7 counterexample: with targets `v0, v1`, `v0` ready (`cooldown 0`) and
`v1` cooling until `10`, at `now = 5` the loop sleeps until `10` instead of
picking from the ready set `[v0]` without waiting, refuting the claim. -/
theorem chaos_pick_ready_counterexample :
    ChaosTarget.validator 0 ∈ [ChaosTarget.validator 0, ChaosTarget.validator 1] ∧
    (fun t => if t = ChaosTarget.validator 0 then 0 else 10)
      (ChaosTarget.validator 0) ≤ 5 ∧
    pick_target_step [ChaosTarget.validator 0, ChaosTarget.validator 1]
      (fun t => if t = ChaosTarget.validator 0 then 0 else 10) 5 =
      PickAction.sleepUntil 10 ∧
    pick_target_step [ChaosTarget.validator 0, ChaosTarget.validator 1]
      (fun t => if t = ChaosTarget.validator 0 then 0 else 10) 5 ≠
      PickAction.pickFrom [ChaosTarget.validator 0] := by
  refine ⟨by decide, by decide, by decide, by decide⟩

/-- C7 amended: whenever any target's cooldown still lies in the future the
loop sleeps until the earliest such ready-instant — even if other targets
are already ready — and it draws a target (uniformly, among the whole
target set, which is then exactly the ready set) only once every cooldown
has expired. -/
theorem chaos_pick_waits_for_all (targets : List ChaosTarget)
    (cooldowns : ChaosTarget → ℕ) (now : ℕ) :
    ((∃ t ∈ targets, now < cooldowns t) →
      ∃ next, pick_target_step targets cooldowns now = PickAction.sleepUntil next ∧
        now < next ∧ (∃ t ∈ targets, cooldowns t = next) ∧
        ∀ t ∈ targets, now < cooldowns t → next ≤ cooldowns t) ∧
    ((∀ t ∈ targets, cooldowns t ≤ now) → targets ≠ [] →
      pick_target_step targets cooldowns now = PickAction.pickFrom targets) := by
  constructor
  · rintro ⟨t, ht, htc⟩
    have hmem : cooldowns t ∈
        (targets.map cooldowns).filter fun ready => decide (now < ready) := by
      rw [List.mem_filter]
      exact ⟨List.mem_map_of_mem cooldowns ht, by simpa using htc⟩
    obtain ⟨x, xs, hxs⟩ : ∃ x xs,
        ((targets.map cooldowns).filter fun ready => decide (now < ready)) =
          x :: xs := by
      cases hl : (targets.map cooldowns).filter fun ready => decide (now < ready) with
      | nil => rw [hl] at hmem; exact absurd hmem (by simp)
      | cons x xs => exact ⟨x, xs, rfl⟩
    obtain ⟨m, hm⟩ := listMin_isSome x xs
    rw [← hxs] at hm
    refine ⟨m, ?_, ?_, ?_, ?_⟩
    · rw [pick_target_step, hm]
    · have := List.mem_filter.mp (listMin_mem _ m hm)
      simpa using this.2
    · have := List.mem_filter.mp (listMin_mem _ m hm)
      obtain ⟨u, hu, hum⟩ := List.mem_map.mp this.1
      exact ⟨u, hu, hum⟩
    · intro u hu huc
      refine listMin_le _ m hm (cooldowns u) ?_
      rw [List.mem_filter]
      exact ⟨List.mem_map_of_mem cooldowns hu, by simpa using huc⟩
  · intro hall hne
    have hfil : ((targets.map cooldowns).filter fun ready => decide (now < ready))
        = [] := by
      rw [List.filter_eq_nil_iff]
      intro x hx
      obtain ⟨u, hu, rfl⟩ := List.mem_map.mp hx
      simpa using Nat.not_lt.mpr (hall u hu)
    have havail : (targets.filter fun t => decide (cooldowns t ≤ now)) = targets :=
      List.filter_eq_self.mpr fun u hu => by simpa using hall u hu
    rw [pick_target_step, hfil]
    simp only [listMin, havail]
    rw [if_neg (by simpa [List.isEmpty_iff] using hne)]

/-- C7 amended witness: at the counterexample instant the loop sleeps until
10; once all cooldowns expire it draws among both targets. -/
theorem chaos_pick_waits_for_all_witness :
    (∃ next, pick_target_step [ChaosTarget.validator 0, ChaosTarget.validator 1]
        (fun t => if t = ChaosTarget.validator 0 then 0 else 10) 5 =
        PickAction.sleepUntil next ∧
      5 < next ∧
      (∃ t ∈ [ChaosTarget.validator 0, ChaosTarget.validator 1],
        (fun t => if t = ChaosTarget.validator 0 then 0 else 10) t = next) ∧
      ∀ t ∈ [ChaosTarget.validator 0, ChaosTarget.validator 1],
        5 < (fun t => if t = ChaosTarget.validator 0 then 0 else 10) t →
          next ≤ (fun t => if t = ChaosTarget.validator 0 then 0 else 10) t) ∧
    pick_target_step [ChaosTarget.validator 0, ChaosTarget.validator 1]
      (fun _ => 0) 20 =
      PickAction.pickFrom [ChaosTarget.validator 0, ChaosTarget.validator 1] :=
  ⟨(chaos_pick_waits_for_all [ChaosTarget.validator 0, ChaosTarget.validator 1]
      (fun t => if t = ChaosTarget.validator 0 then 0 else 10) 5).1
      ⟨ChaosTarget.validator 1, by decide, by decide⟩,
    (chaos_pick_waits_for_all [ChaosTarget.validator 0, ChaosTarget.validator 1]
      (fun _ => 0) 20).2 (fun t _ => Nat.zero_le 20) (by decide)⟩

/-- Any candidate list offered by `pick_target_step` is drawn from the
target set (the ready-filter or the dead-code fallback over all targets). -/
theorem pick_target_step_candidates_sub (targets : List ChaosTarget)
    (cooldowns : ChaosTarget → ℕ) (now : ℕ) (candidates : List ChaosTarget)
    (hstep : pick_target_step targets cooldowns now = PickAction.pickFrom candidates ∨
      pick_target_step targets cooldowns now = PickAction.fallbackFrom candidates) :
    ∀ t ∈ candidates, t ∈ targets := by
  rw [pick_target_step] at hstep
  cases hmin : listMin ((targets.map cooldowns).filter fun ready =>
      decide (now < ready)) with
  | some nextReady =>
    rw [hmin] at hstep
    rcases hstep with h | h <;> exact absurd h (by simp)
  | none =>
    rw [hmin] at hstep
    by_cases hav : (targets.filter fun t => decide (cooldowns t ≤ now)).isEmpty
    · rw [if_pos hav] at hstep
      rcases hstep with h | h
      · exact absurd h (by simp)
      · injection h with h
        subst h
        exact fun t ht => ht
    · rw [if_neg hav] at hstep
      rcases hstep with h | h
      · injection h with h
        subst h
        exact fun t ht => (List.mem_filter.mp ht).1
      · exact absurd h (by simp)

/-- C8: with exactly one validator the chaos target set contains only
executor targets, and every candidate list `pick_target` can draw from
contains only executor targets, so `restart_validator` is never invoked. -/
theorem chaos_single_validator_targets (includeValidators includeExecutors : Bool)
    (executorCount : ℕ) :
    (∀ t ∈ chaos_targets includeValidators includeExecutors 1 executorCount,
      ∃ i, t = ChaosTarget.executor i) ∧
    (∀ cooldowns now candidates,
      (pick_target_step (chaos_targets includeValidators includeExecutors 1
          executorCount) cooldowns now = PickAction.pickFrom candidates ∨
        pick_target_step (chaos_targets includeValidators includeExecutors 1
          executorCount) cooldowns now = PickAction.fallbackFrom candidates) →
      ∀ t ∈ candidates, ∃ i, t = ChaosTarget.executor i) := by
  have hmain : ∀ t ∈ chaos_targets includeValidators includeExecutors 1 executorCount,
      ∃ i, t = ChaosTarget.executor i := by
    intro t ht
    rw [chaos_targets] at ht
    rcases List.mem_append.mp ht with hv | he
    · rw [if_neg (by simp)] at hv
      exact absurd hv (by simp)
    · by_cases hie : includeExecutors
      · rw [if_pos hie] at he
        obtain ⟨i, _, rfl⟩ := List.mem_map.mp he
        exact ⟨i, rfl⟩
      · rw [if_neg hie] at he
        exact absurd he (by simp)
  refine ⟨hmain, fun cooldowns now candidates hstep t ht => ?_⟩
  exact hmain t (pick_target_step_candidates_sub _ cooldowns now candidates hstep t ht)

/-- C8 witness: one validator, two executors, both groups included. -/
theorem chaos_single_validator_targets_witness :
    (∃ i, ChaosTarget.executor 0 = ChaosTarget.executor i) ∧
    (∃ i, ChaosTarget.executor 1 = ChaosTarget.executor i) :=
  ⟨(chaos_single_validator_targets true true 2).1 (ChaosTarget.executor 0) (by decide),
    (chaos_single_validator_targets true true 2).2 (fun _ => 0) 7
      [ChaosTarget.executor 0, ChaosTarget.executor 1] (Or.inl (by decide))
      (ChaosTarget.executor 1) (by decide)⟩

/-- Invariants of the gather loop: every returned stack entry carries the
parent fetched for its header, consecutive entries are parent-linked
(head's header is the parent recorded below it), and no entry's header was
in the incoming `seen` set. -/
theorem gatherLoop_invariants (fetch : ℕ → Option ℕ) (seen : List ℕ) :
    ∀ (remaining cursor : ℕ) (stack out : List (ℕ × ℕ)) (seen' : List ℕ),
      gatherLoop fetch seen remaining cursor stack = some (out, seen') →
      (∀ e ∈ stack, fetch e.1 = some e.2) →
      List.Chain' StackLink stack →
      (∀ e ∈ stack.head?, e.2 = cursor) →
      (∀ e ∈ stack, e.1 ∉ seen) →
      (∀ e ∈ out, fetch e.1 = some e.2) ∧ List.Chain' StackLink out ∧
        ∀ e ∈ out, e.1 ∉ seen := by
  intro remaining
  induction remaining with
  | zero =>
    intro cursor stack out seen' hrun hf hc _ hs
    simp only [gatherLoop] at hrun
    by_cases hcs : cursor ∈ seen
    · rw [if_pos hcs] at hrun
      injection hrun with hrun
      injection hrun with h1 h2
      subst h1
      exact ⟨hf, hc, hs⟩
    · rw [if_neg hcs] at hrun
      injection hrun with hrun
      injection hrun with h1 h2
      subst h1
      exact ⟨hf, hc, hs⟩
  | succ r ih =>
    intro cursor stack out seen' hrun hf hc hh hs
    simp only [gatherLoop] at hrun
    by_cases hcs : cursor ∈ seen
    · rw [if_pos hcs] at hrun
      injection hrun with hrun
      injection hrun with h1 h2
      subst h1
      exact ⟨hf, hc, hs⟩
    · rw [if_neg hcs] at hrun
      cases hfc : fetch cursor with
      | none =>
        rw [hfc] at hrun
        have hrun' : (none : Option (List (ℕ × ℕ) × List ℕ)) = some (out, seen') :=
          hrun
        exact absurd hrun' (by simp)
      | some parent =>
        rw [hfc] at hrun
        have hrun' : (if parent ∈ seen ∨ parent = cursor
            then some ((cursor, parent) :: stack, seen)
            else gatherLoop fetch seen r parent ((cursor, parent) :: stack))
            = some (out, seen') := hrun
        have hf' : ∀ e ∈ (cursor, parent) :: stack, fetch e.1 = some e.2 := by
          intro e he
          rcases List.mem_cons.mp he with rfl | he'
          · exact hfc
          · exact hf e he'
        have hc' : List.Chain' StackLink ((cursor, parent) :: stack) := by
          rw [List.chain'_cons']
          exact ⟨fun y hy => (hh y hy).symm, hc⟩
        have hs' : ∀ e ∈ (cursor, parent) :: stack, e.1 ∉ seen := by
          intro e he
          rcases List.mem_cons.mp he with rfl | he'
          · exact hcs
          · exact hs e he'
        by_cases hps : parent ∈ seen ∨ parent = cursor
        · rw [if_pos hps] at hrun'
          injection hrun' with hrun'
          injection hrun' with h1 h2
          subst h1
          exact ⟨hf', hc', hs'⟩
        · rw [if_neg hps] at hrun'
          refine ih parent ((cursor, parent) :: stack) out seen' hrun' hf' hc' ?_ hs'
          intro e he
          simp only [List.head?_cons, Option.mem_def, Option.some_inj] at he
          rw [← he]

/-- Along a parent-linked stack whose entries all carry fetched parents, any
parent-decreasing measure increases strictly from head (deepest ancestor)
to tail (tip). -/
theorem chain_stackLink_mu (fetch : ℕ → Option ℕ) (μ : ℕ → ℕ)
    (hμ : ∀ x p, fetch x = some p → μ p < μ x) :
    ∀ l : List (ℕ × ℕ), List.Chain' StackLink l →
      (∀ e ∈ l, fetch e.1 = some e.2) →
      List.Chain' (fun x y : ℕ × ℕ => μ x.1 < μ y.1) l := by
  intro l
  induction l with
  | nil => intro _ _; exact List.chain'_nil
  | cons a t ih =>
    intro hc hf
    cases t with
    | nil => exact List.chain'_singleton _
    | cons b t' =>
      rw [List.chain'_cons] at hc ⊢
      refine ⟨?_, ih hc.2 fun e he => hf e (List.mem_cons_of_mem a he)⟩
      have hab : a.1 = b.2 := hc.1
      have hb : fetch b.1 = some b.2 :=
        hf b (List.mem_cons_of_mem a (List.mem_cons_self b t'))
      rw [hab]
      exact hμ b.1 b.2 hb

/-- A strict ancestor has strictly smaller measure when every parent step
decreases the measure. -/
theorem isAncestor_mu_lt (fetch : ℕ → Option ℕ) (μ : ℕ → ℕ)
    (hμ : ∀ x p, fetch x = some p → μ p < μ x) :
    ∀ k b a, fetchIter fetch (k + 1) b = some a → μ a < μ b := by
  intro k
  induction k with
  | zero =>
    intro b a h
    rw [fetchIter] at h
    cases hfb : fetch b with
    | none =>
      rw [hfb] at h
      exact absurd h (by simp)
    | some p =>
      rw [hfb] at h
      have h' : fetchIter fetch 0 p = some a := h
      rw [fetchIter] at h'
      injection h' with h'
      subst h'
      exact hμ _ _ hfb
  | succ k ih =>
    intro b a h
    rw [fetchIter] at h
    cases hfb : fetch b with
    | none =>
      rw [hfb] at h
      exact absurd h (by simp)
    | some p =>
      rw [hfb] at h
      have h' : fetchIter fetch (k + 1) p = some a := h
      exact (ih p a h').trans (hμ b p hfb)

/-- C1: within one `catch_up` batch the scanner emits in strict
ancestor-before-descendant order (any ancestor among the emitted records
precedes its descendant), and it never re-emits a header already in the
`seen` set.  The measure hypothesis states that every fetched parent link
descends (as block height does on a real chain). -/
theorem catch_up_ancestor_first (fetch : ℕ → Option ℕ) (μ : ℕ → ℕ)
    (seen : List ℕ) (tip height : ℕ) (out : List (ℕ × ℕ)) (seen' : List ℕ)
    (hμ : ∀ x p, fetch x = some p → μ p < μ x)
    (hrun : catch_up fetch seen tip height = some (out, seen'))
    (i j : ℕ) (hi : i < out.length) (hj : j < out.length)
    (hanc : IsAncestor fetch (out.get ⟨i, hi⟩).1 (out.get ⟨j, hj⟩).1) :
    i < j ∧ ∀ e ∈ out, e.1 ∉ seen := by
  rw [catch_up] at hrun
  obtain ⟨⟨o, s⟩, hg, hmap⟩ := Option.map_eq_some'.mp hrun
  injection hmap with h1 h2
  have h1' : o = out := h1
  rw [h1'] at hg
  obtain ⟨hf, hc, hs⟩ := gatherLoop_invariants fetch seen height tip [] out s hg
    (by intro e he; exact absurd he (by simp))
    List.chain'_nil
    (by intro e he; exact absurd he (by simp))
    (by intro e he; exact absurd he (by simp))
  refine ⟨?_, hs⟩
  have hpw : List.Pairwise (fun x y : ℕ × ℕ => μ x.1 < μ y.1) out := by
    haveI : IsTrans (ℕ × ℕ) fun x y : ℕ × ℕ => μ x.1 < μ y.1 :=
      ⟨fun a b c h1 h2 => h1.trans h2⟩
    exact List.chain'_iff_pairwise.mp (chain_stackLink_mu fetch μ hμ out hc hf)
  obtain ⟨k, hk⟩ := hanc
  have hAB : μ (out.get ⟨i, hi⟩).1 < μ (out.get ⟨j, hj⟩).1 :=
    isAncestor_mu_lt fetch μ hμ k _ _ hk
  rcases Nat.lt_trichotomy i j with h | h | h
  · exact h
  · subst h
    exact absurd hAB (lt_irrefl _)
  · have hji := List.pairwise_iff_get.mp hpw ⟨j, hj⟩ ⟨i, hi⟩ (Fin.mk_lt_mk.mpr h)
    exact absurd (hAB.trans hji) (lt_irrefl _)

/-- C1 witness: a three-block chain `3 → 2 → 1` over an empty `seen` set is
emitted as `[(1, 0), (2, 1), (3, 2)]`; block 2 is an ancestor of block 3
and precedes it. -/
theorem catch_up_ancestor_first_witness :
    (1 : ℕ) < 2 ∧
    ∀ e ∈ [((1 : ℕ), (0 : ℕ)), (2, 1), (3, 2)], e.1 ∉ ([] : List ℕ) :=
  catch_up_ancestor_first
    (fun n => if n = 0 then none else if n ≤ 3 then some (n - 1) else none)
    (fun n => n) [] 3 3 [(1, 0), (2, 1), (3, 2)] [1, 2, 3, 0]
    (by
      intro x p h
      simp only [] at h
      show p < x
      by_cases h0 : x = 0
      · rw [h0] at h
        exact absurd h (by simp)
      · by_cases h3 : x ≤ 3
        · rw [if_neg h0, if_pos h3] at h
          injection h with h
          omega
        · rw [if_neg h0, if_neg h3] at h
          exact absurd h (by simp))
    (by decide) 1 2 (by decide) (by decide) ⟨0, by decide⟩
